import Mathlib

/-!
Verification of the AVL-balanced ordered map in
src/kaseev.andrey/S4/BinarySearchTree.hpp (namespace kaseev, class BST).

The node graph is embedded as an inductive tree.  Each node carries the
key, the value, the stored `height` field (a C++ `int`, embedded as `Int`)
and a flag `pnull` recording whether the node's `parent` weak pointer is
empty.  The source maintains the parent pointer only through explicit
assignments (`->parent = ...`, `parent.reset()`), and every such assignment
either stores the structurally correct parent, stores a pointer that is
null or expired by the time it can be observed, or is itself overwritten
before the enclosing call returns; hence the reachable content of the
field is captured by the flag: `pnull = true` means a null (or expired,
hence locking to null) parent pointer, `pnull = false` means a pointer to
the structurally correct parent.  Entries, heights, counts and lookups do
not read the parent pointer at all; only iterator advancement does.

The comparator `Compare` is embedded as the `<` of a linear order, the
lawful instantiation used by the container's clients (std::less-style
strict ordering with equality as equivalence).
-/

namespace kaseev

variable {α β : Type} [LinearOrder α]

/-- A node graph: `leaf` is the absent child (null pointer); `node` carries
the left child, key, value, the stored `height` field, the parent-null flag
and the right child. -/
inductive Tree (α β : Type) where
  | leaf : Tree α β
  | node : Tree α β → α → β → Int → Bool → Tree α β → Tree α β
deriving DecidableEq

/-- `height(Node*)` from the source: 0 for an absent node, else the stored
height field (not recomputed from children). -/
def height : Tree α β → Int
  | .leaf => 0
  | .node _ _ _ h _ _ => h

/-- `balanceFactor(Node*)`: stored height of the left child minus stored
height of the right child, 0 for an absent node. -/
def balanceFactor : Tree α β → Int
  | .leaf => 0
  | .node l _ _ _ _ r => height l - height r

/-- `updateHeight(Node*)`: recompute the stored height from the children's
current stored heights. -/
def updateHeight : Tree α β → Tree α β
  | .leaf => .leaf
  | .node l k v _ pn r => .node l k v (1 + max (height l) (height r)) pn r

/-- Overwrite a node's parent-null flag (models a `->parent = ...`
assignment or `parent.reset()`; `true` = the field is or behaves as null). -/
def setPNull (b : Bool) : Tree α β → Tree α β
  | .leaf => .leaf
  | .node l k v h _ r => .node l k v h b r

/-- Modelled from the spec: the bodies of the `Node` constructors are only
declared in the repository, not defined.  Per the spec's height convention
(height(absent) = 0, height(node) = 1 + max of children), a freshly
constructed node with no children stores height 1. -/
def newNodeHeight : Int := 1

/-- `rotateRight(y)`: promotes `x = y->left`.  `y->left = x->right`
(reparented to `y`), `x->right = y` (reparented to `x`), heights of the
demoted node and then the promoted node are recomputed.  The final
assignment `x->parent = x->right->parent.lock()` reads the field it just
overwrote with `x`, so the promoted node ends with a non-null parent
pointer (it is reset by `balance`).  When `y->left` is absent the source
would dereference null; `balance` only calls this when the left child
exists, and the fallthrough returns the argument unchanged. -/
def rotateRight : Tree α β → Tree α β
  | .node (.node ll lk lv lh _ lr) k v h _ r =>
      updateHeight (.node ll lk lv lh false
        (updateHeight (.node (setPNull false lr) k v h false r)))
  | t => t

/-- `rotateLeft(x)`: mirror image of `rotateRight`. -/
def rotateLeft : Tree α β → Tree α β
  | .node l k v h _ (.node rl rk rv rh _ rr) =>
      updateHeight (.node
        (updateHeight (.node l k v h false (setPNull false rl))) rk rv rh false rr)
  | t => t

/-- `balance(n)`: refresh the stored height, then if the balance factor
leaves [-1, 1], perform the single or double rotation, and reset the new
subtree root's parent pointer (`newRoot->parent.reset()`). -/
def balance (t : Tree α β) : Tree α β :=
  match updateHeight t with
  | .leaf => .leaf
  | .node l k v h pn r =>
    if balanceFactor (Tree.node l k v h pn r) > 1 then
      setPNull true (rotateRight
        (.node (if balanceFactor l < 0 then rotateLeft l else l) k v h pn r))
    else if balanceFactor (Tree.node l k v h pn r) < -1 then
      setPNull true (rotateLeft
        (.node l k v h pn (if balanceFactor r > 0 then rotateRight r else r)))
    else Tree.node l k v h pn r

/-- The private `insert(node, key, value, parent)`.  The parent argument is
only used when constructing a fresh node, so it is embedded as the flag
`parentNull` (`true` exactly for the top-level call, which passes
`nullptr`).  The Boolean result records whether `++nodeCount` ran, i.e.
whether a node was created. -/
def insertNode : Tree α β → α → β → Bool → Tree α β × Bool
  | .leaf, key, value, parentNull =>
      (.node .leaf key value newNodeHeight parentNull .leaf, true)
  | .node l k v h pn r, key, value, _ =>
      if key < k then
        let p := insertNode l key value false
        (balance (.node p.1 k v h pn r), p.2)
      else if k < key then
        let p := insertNode r key value false
        (balance (.node l k v h pn p.1), p.2)
      else
        (balance (.node l k value h pn r), false)

/-- `minValueNode(node)`: walk to the leftmost node; the source
dereferences its argument unconditionally, so the absent case is the
fallible branch. -/
def minValueNode : Tree α β → Option (α × β)
  | .leaf => none
  | .node .leaf k v _ _ _ => some (k, v)
  | .node (.node a b c d e f) _ _ _ _ _ => minValueNode (.node a b c d e f)

/-- The private `erase(node, key)`.  In the one-child cases the removed
node is freed when the recursive call returns, so the returned child's weak
parent pointer expires and locks to null: its flag is set accordingly.
The two-children case copies the in-order successor's key and value into
the node and erases the successor from the right subtree.  `nodeCount`
is not touched anywhere in this function. -/
def eraseNode : Tree α β → α → Tree α β
  | .leaf, _ => .leaf
  | .node l k v h pn r, key =>
      if key < k then balance (.node (eraseNode l key) k v h pn r)
      else if k < key then balance (.node l k v h pn (eraseNode r key))
      else
        match l, r with
        | .leaf, _ => setPNull true r
        | _, .leaf => setPNull true l
        | _, _ =>
          match minValueNode r with
          | some m => balance (.node l m.1 m.2 h pn (eraseNode r m.1))
          | none => balance (.node l k v h pn r)

/-- The private `find(node, key)`: comparator-guided descent; the public
`find(key)` performs the identical descent iteratively from the root. -/
def findNode : Tree α β → α → Option (α × β)
  | .leaf, _ => none
  | .node l k v _ _ r, key =>
      if key < k then findNode l key
      else if k < key then findNode r key
      else some (k, v)

/-- `clone(node)`: each node is rebuilt via the two-argument `Node`
constructor (parent defaulted to `nullptr`, hence `pnull = true`, and the
constructor-default stored height `newNodeHeight`); the children are cloned
and attached afterwards, with no height or parent fixup. -/
def cloneNode : Tree α β → Tree α β
  | .leaf => .leaf
  | .node l k v _ _ r => .node (cloneNode l) k v newNodeHeight true (cloneNode r)

/-- The container: the owned root and the stored entry count. -/
structure BST (α β : Type) where
  root : Tree α β
  nodeCount : Nat
deriving DecidableEq

/-- The default constructor: null root, count 0. -/
def bstEmpty : BST α β := ⟨.leaf, 0⟩

/-- `push(key, value)`: `root = insert(std::move(root), key, value,
nullptr)`; the count grows by one exactly when `insert` created a node.
The public `insert(pair)` delegates to `push`. -/
def push (b : BST α β) (key : α) (value : β) : BST α β :=
  let p := insertNode b.root key value true
  ⟨p.1, b.nodeCount + (if p.2 then 1 else 0)⟩

/-- `drop(key)`: `root = erase(std::move(root), key)`; the count is left
unchanged by the source.  The public `erase(key)` delegates to `drop`. -/
def drop (b : BST α β) (key : α) : BST α β :=
  ⟨eraseNode b.root key, b.nodeCount⟩

/-- `clear()`: release the node graph and reset the count. -/
def clear (b : BST α β) : BST α β := ⟨.leaf, 0⟩

/-- `size()`: the stored entry count. -/
def size (b : BST α β) : Nat := b.nodeCount

/-- The public `find(key)`, returning the matched entry or `none` for the
end position. -/
def find (b : BST α β) (key : α) : Option (α × β) := findNode b.root key

/-- The const `operator[](key)`: look the key up with the private `find`;
throw (`.error ()`, modelling the `std::runtime_error("Key not found")`)
when absent, otherwise yield the stored value.  The container state is
returned alongside to make the (absent) mutation explicit. -/
def indexedRead (b : BST α β) (key : α) : Except Unit β × BST α β :=
  match findNode b.root key with
  | none => (.error (), b)
  | some e => (.ok e.2, b)

/-- The copy constructor: copies the count and deep-clones the node graph. -/
def copyBST (b : BST α β) : BST α β := ⟨cloneNode b.root, b.nodeCount⟩

/-- The public mutations used to build reachable container states. -/
inductive Op (α β : Type) where
  | push (key : α) (value : β)
  | drop (key : α)
  | clear

def applyOp (b : BST α β) : Op α β → BST α β
  | .push k v => push b k v
  | .drop k => drop b k
  | .clear => clear b

/-- The container state after a sequence of public mutations applied to a
freshly constructed container. -/
def applyOps (ops : List (Op α β)) : BST α β := ops.foldl applyOp bstEmpty

/-- The entries of the node graph in symmetric order (left subtree, node,
right subtree); this is the specification-level list of stored entries. -/
def inorder : Tree α β → List (α × β)
  | .leaf => []
  | .node l k v _ _ r => inorder l ++ (k, v) :: inorder r

/-- The number of reachable nodes. -/
def countNodes : Tree α β → Nat
  | .leaf => 0
  | .node l _ _ _ _ r => countNodes l + 1 + countNodes r

/-!
Iterator positions.  An iterator references a node inside the tree; a
position records the referenced node's own fields together with the chain
of ancestors above it (innermost first).  Each ancestor frame stores the
ancestor's fields and in which of its child slots the lower subtree sits.
The `Iterator` class is only declared in the repository; its advance
operation is modelled from the spec's successor rule, reading the parent
pointers the source maintains: a `pnull = true` flag is a null parent
pointer, a `pnull = false` flag is a pointer to the structural parent.
-/

/-- One ancestor frame: the fields of the parent node and the sibling
subtree on the other side. -/
inductive PathStep (α β : Type) where
  | fromLeft : α → β → Int → Bool → Tree α β → PathStep α β
  | fromRight : α → β → Int → Bool → Tree α β → PathStep α β
deriving DecidableEq

/-- An iterator position: the referenced node's fields plus its ancestor
chain. -/
structure Pos (α β : Type) where
  left : Tree α β
  key : α
  val : β
  ht : Int
  pn : Bool
  right : Tree α β
  path : List (PathStep α β)
deriving DecidableEq

/-- `minValueNode` as a position: follow left children, recording each
passed node as an ancestor frame; `none` when the subtree is absent. -/
def leftmostPos : Tree α β → List (PathStep α β) → Option (Pos α β)
  | .leaf, _ => none
  | .node .leaf k v h pn r, path => some ⟨.leaf, k, v, h, pn, r, path⟩
  | .node (.node a b c d e f) k v h pn r, path =>
      leftmostPos (.node a b c d e f) (.fromLeft k v h pn r :: path)

/-- Whether a node's parent pointer is null. -/
def parentIsNull : Tree α β → Bool
  | .leaf => true
  | .node _ _ _ _ pn _ => pn

/-- The upward phase of the successor rule: follow parent pointers while
the current node is its parent's right child; stop at the first parent
whose left child contains the current node, or at a null parent pointer
(top reached, or the pointer was severed: next position is end). -/
def ascend : Tree α β → List (PathStep α β) → Option (Pos α β)
  | _, [] => none
  | cur, .fromLeft k v h pn r :: rest =>
      if parentIsNull cur then none else some ⟨cur, k, v, h, pn, r, rest⟩
  | cur, .fromRight k v h pn l :: rest =>
      if parentIsNull cur then none else ascend (.node l k v h pn cur) rest

/-- The successor rule (`operator++`), modelled from the spec: if the
current node has a right child, the next position is that subtree's
leftmost node; otherwise walk up via parent links. -/
def succPos (p : Pos α β) : Option (Pos α β) :=
  match p.right with
  | .leaf => ascend (.node p.left p.key p.val p.ht p.pn .leaf) p.path
  | .node a b c d e f =>
      leftmostPos (.node a b c d e f) (.fromRight p.key p.val p.ht p.pn p.left :: p.path)

/-- Repeated application of the successor rule, collecting the visited
entries; the fuel bounds the number of visited positions. -/
def iterGo : Nat → Option (Pos α β) → List (α × β)
  | _, none => []
  | 0, some _ => []
  | n + 1, some p => (p.key, p.val) :: iterGo n (succPos p)

/-- The full ascending traversal: from `begin()` (the leftmost node of the
root, absent for an empty tree) repeatedly apply the successor rule until
the end position.  A traversal visiting each node once needs exactly
`countNodes` steps, which is the fuel supplied. -/
def traverse (t : Tree α β) : List (α × β) :=
  iterGo (countNodes t) (leftmostPos t [])

/-- A bounded guarded iterator loop: `while (it != end && f(it->first))
++it`.  The fuel bounds the iterations; with fuel at least the number of
entries after the position the loop runs to its genuine exit. -/
def advanceWhile (f : α → Bool) : Nat → Option (Pos α β) → Option (Pos α β)
  | _, none => none
  | 0, some p => some p
  | n + 1, some p => if f p.key then advanceWhile f n (succPos p) else some p

/-- `equalRange(key)`: the source starts from `root` and runs
`while (node->left) node = node->left` without checking `root`, so the
empty container dereferences the absent root (the `none` result); then
`lower` advances from the leftmost node while its key is below `key`, and
`upper` advances from `lower` while `key` is not below its key. -/
def equalRange (b : BST α β) (key : α) :
    Option (Option (Pos α β) × Option (Pos α β)) :=
  match b.root with
  | .leaf => none
  | .node a k0 v0 h0 p0 r0 =>
      let fuel := countNodes b.root + 1
      let lower := advanceWhile (fun x => decide (x < key)) fuel
        (leftmostPos (.node a k0 v0 h0 p0 r0) [])
      let upper := advanceWhile (fun x => !decide (key < x)) fuel lower
      some (lower, upper)

/-!
Invariants of the data model (spec §3), stated over the embedding.
-/

/-- All entries of a subtree satisfy a key predicate. -/
def All (p : α → Prop) (t : Tree α β) : Prop := ∀ e ∈ inorder t, p e.1

/-- The order invariant: at every node, all keys of the left subtree are
strictly below the node's key and all keys of the right subtree strictly
above, under the configured ordering. -/
def Ordered : Tree α β → Prop
  | .leaf => True
  | .node l k _ _ _ r =>
      Ordered l ∧ Ordered r ∧ All (fun x => x < k) l ∧ All (fun x => k < x) r

/-- Every node's stored height field equals 1 + max of the children's
stored heights (height of an absent child being 0). -/
def HeightsOk : Tree α β → Prop
  | .leaf => True
  | .node l _ _ h _ r =>
      HeightsOk l ∧ HeightsOk r ∧ h = 1 + max (height l) (height r)

/-- The AVL balance inequality |height(left) − height(right)| ≤ 1 at every
node, over the stored height fields, written as two inequalities. -/
def BalancedS : Tree α β → Prop
  | .leaf => True
  | .node l _ _ _ _ r =>
      BalancedS l ∧ BalancedS r ∧ height l - height r ≤ 1 ∧ height r - height l ≤ 1

/-- Boolean mirror of `HeightsOk`, for decidability. -/
def heightsOkB : Tree α β → Bool
  | .leaf => true
  | .node l _ _ h _ r =>
      (h == 1 + max (height l) (height r)) && heightsOkB l && heightsOkB r

theorem heightsOk_iff_b (t : Tree α β) : HeightsOk t ↔ heightsOkB t = true := by
  induction t with
  | leaf => simp [HeightsOk, heightsOkB]
  | node l k v h pn r ihl ihr =>
      simp [HeightsOk, heightsOkB, ihl, ihr]
      tauto

instance (t : Tree α β) : Decidable (HeightsOk t) :=
  decidable_of_iff _ (heightsOk_iff_b t).symm

/-!
Entry-list preservation: rotations and `balance` permute the node graph
but keep the symmetric-order entry list unchanged.
-/

omit [LinearOrder α] in
theorem inorder_updateHeight (t : Tree α β) : inorder (updateHeight t) = inorder t := by
  cases t <;> simp [updateHeight, inorder]

omit [LinearOrder α] in
theorem inorder_setPNull (b : Bool) (t : Tree α β) :
    inorder (setPNull b t) = inorder t := by
  cases t <;> simp [setPNull, inorder]

omit [LinearOrder α] in
theorem height_updateHeight_node (l : Tree α β) (k : α) (v : β) (h : Int) (pn : Bool)
    (r : Tree α β) :
    height (updateHeight (Tree.node l k v h pn r)) = 1 + max (height l) (height r) := by
  simp [updateHeight, height]

omit [LinearOrder α] in
theorem height_setPNull (b : Bool) (t : Tree α β) : height (setPNull b t) = height t := by
  cases t <;> simp [setPNull, height]

omit [LinearOrder α] in
theorem inorder_rotateRight (t : Tree α β) : inorder (rotateRight t) = inorder t := by
  match t with
  | .leaf => rfl
  | .node .leaf _ _ _ _ _ => rfl
  | .node (.node ll lk lv lh lpn lr) k v h pn r =>
      simp [rotateRight, inorder, inorder_updateHeight, inorder_setPNull]

omit [LinearOrder α] in
theorem inorder_rotateLeft (t : Tree α β) : inorder (rotateLeft t) = inorder t := by
  match t with
  | .leaf => rfl
  | .node _ _ _ _ _ .leaf => rfl
  | .node l k v h pn (.node rl rk rv rh rpn rr) =>
      simp [rotateLeft, inorder, inorder_updateHeight, inorder_setPNull]

omit [LinearOrder α] in
theorem inorder_balance (t : Tree α β) : inorder (balance t) = inorder t := by
  match t with
  | .leaf => rfl
  | .node l k v h pn r =>
      simp only [balance, updateHeight]
      split_ifs <;>
        simp [inorder_setPNull, inorder_rotateRight, inorder_rotateLeft,
          inorder_rotateLeft, inorder, inorder_updateHeight]

/-!
The order invariant, characterised by pairwise-sorted entry lists.
-/

omit [LinearOrder α] in
theorem All_node (p : α → Prop) (l : Tree α β) (k : α) (v : β) (h : Int) (pn : Bool)
    (r : Tree α β) :
    All p (Tree.node l k v h pn r) ↔ All p l ∧ p k ∧ All p r := by
  simp only [All, inorder]
  constructor
  · intro hp
    refine ⟨fun e he => hp e ?_, hp (k, v) ?_, fun e he => hp e ?_⟩
    · simp [he]
    · simp
    · simp [he]
  · rintro ⟨h1, h2, h3⟩ e he
    rcases List.mem_append.1 he with he | he
    · exact h1 e he
    · rcases List.mem_cons.1 he with rfl | he
      · exact h2
      · exact h3 e he

theorem ordered_iff_pairwise (t : Tree α β) :
    Ordered t ↔ (inorder t).Pairwise (fun a b => a.1 < b.1) := by
  induction t with
  | leaf => simp [Ordered, inorder]
  | node l k v h pn r ihl ihr =>
      simp only [Ordered, inorder, List.pairwise_append, List.pairwise_cons, ihl, ihr, All]
      constructor
      · rintro ⟨hl, hr, hbl, hbr⟩
        refine ⟨hl, ⟨fun e he => hbr e he, hr⟩, ?_⟩
        rintro a ha b hb
        rcases List.mem_cons.1 hb with rfl | hb
        · exact hbl a ha
        · exact lt_trans (hbl a ha) (hbr b hb)
      · rintro ⟨hl, ⟨hk, hr⟩, hcross⟩
        exact ⟨hl, hr, fun e he => hcross e he (k, v) (List.mem_cons_self _ _), hk⟩

theorem Ordered_balance (t : Tree α β) : Ordered (balance t) ↔ Ordered t := by
  rw [ordered_iff_pairwise, ordered_iff_pairwise, inorder_balance]

omit [LinearOrder α] in
theorem All_balance (p : α → Prop) (t : Tree α β) : All p (balance t) ↔ All p t := by
  simp [All, inorder_balance]

omit [LinearOrder α] in
theorem All_setPNull (p : α → Prop) (b : Bool) (t : Tree α β) :
    All p (setPNull b t) ↔ All p t := by
  simp [All, inorder_setPNull]

theorem Ordered_setPNull (b : Bool) (t : Tree α β) :
    Ordered (setPNull b t) ↔ Ordered t := by
  rw [ordered_iff_pairwise, ordered_iff_pairwise, inorder_setPNull]

omit [LinearOrder α] in
theorem All_imp {p q : α → Prop} (hpq : ∀ x, p x → q x) {t : Tree α β} (hp : All p t) :
    All q t := fun e he => hpq e.1 (hp e he)

/-!
Insertion: bound preservation, order preservation, and membership of the
inserted entry.
-/

theorem All_insertNode {p : α → Prop} {t : Tree α β} (hp : All p t) {key : α}
    (hk : p key) (value : β) (pn : Bool) : All p (insertNode t key value pn).1 := by
  induction t generalizing pn with
  | leaf => simpa [insertNode, All_node, All, inorder] using hk
  | node l k v h pn0 r ihl ihr =>
      rw [All_node] at hp
      by_cases h1 : key < k
      · simpa [insertNode, h1, All_balance, All_node] using
          ⟨ihl hp.1 false, hp.2.1, hp.2.2⟩
      · by_cases h2 : k < key
        · simpa [insertNode, h1, h2, All_balance, All_node] using
            ⟨hp.1, hp.2.1, ihr hp.2.2 false⟩
        · simpa [insertNode, h1, h2, All_balance, All_node] using
            ⟨hp.1, hp.2.1, hp.2.2⟩

theorem Ordered_insertNode {t : Tree α β} (ho : Ordered t) (key : α) (value : β)
    (pn : Bool) : Ordered (insertNode t key value pn).1 := by
  induction t generalizing pn with
  | leaf => simp [insertNode, Ordered, All, inorder]
  | node l k v h pn0 r ihl ihr =>
      obtain ⟨hol, hor, hbl, hbr⟩ := ho
      by_cases h1 : key < k
      · simpa [insertNode, h1, Ordered_balance, Ordered] using
          ⟨ihl hol false, hor, All_insertNode hbl h1 value false, hbr⟩
      · by_cases h2 : k < key
        · simpa [insertNode, h1, h2, Ordered_balance, Ordered] using
            ⟨hol, ihr hor false, hbl, All_insertNode hbr h2 value false⟩
        · simpa [insertNode, h1, h2, Ordered_balance, Ordered] using
            ⟨hol, hor, hbl, hbr⟩

theorem mem_insertNode (t : Tree α β) (key : α) (value : β) (pn : Bool) :
    (key, value) ∈ inorder (insertNode t key value pn).1 := by
  induction t generalizing pn with
  | leaf => simp [insertNode, inorder]
  | node l k v h pn0 r ihl ihr =>
      by_cases h1 : key < k
      · simp only [insertNode, h1, if_pos, inorder_balance, inorder]
        exact List.mem_append.2 (Or.inl (ihl false))
      · by_cases h2 : k < key
        · simp only [insertNode, h1, h2, if_neg, if_pos, not_false_iff, inorder_balance,
            inorder]
          exact List.mem_append.2 (Or.inr (List.mem_cons_of_mem _ (ihr false)))
        · have hk : k = key := le_antisymm (not_lt.1 h1) (not_lt.1 h2)
          subst hk
          simp [insertNode, h1, h2, inorder_balance, inorder]

/-!
Lookup: the descent is sound and complete on ordered trees.
-/

theorem findNode_eq_key {t : Tree α β} {key : α} {e : α × β}
    (hf : findNode t key = some e) : e.1 = key := by
  induction t with
  | leaf => simp [findNode] at hf
  | node l k v h pn r ihl ihr =>
      by_cases h1 : key < k
      · exact ihl (by simpa [findNode, h1] using hf)
      · by_cases h2 : k < key
        · exact ihr (by simpa [findNode, h1, h2] using hf)
        · have hk : k = key := le_antisymm (not_lt.1 h1) (not_lt.1 h2)
          simp [findNode, h1, h2] at hf
          subst hf
          exact hk

theorem findNode_complete {t : Tree α β} (ho : Ordered t) {key : α} {value : β}
    (hm : (key, value) ∈ inorder t) : findNode t key = some (key, value) := by
  induction t with
  | leaf => simp [inorder] at hm
  | node l k v h pn r ihl ihr =>
      obtain ⟨hol, hor, hbl, hbr⟩ := ho
      simp only [inorder, List.mem_append, List.mem_cons] at hm
      rcases hm with hm | hm | hm
      · have h1 : key < k := hbl (key, value) hm
        simpa [findNode, h1] using ihl hol hm
      · obtain ⟨hk, hv⟩ := Prod.mk.injEq .. ▸ hm
        simp [findNode, hk.symm, hv, lt_irrefl]
      · have h2 : k < key := hbr (key, value) hm
        simpa [findNode, h2, not_lt_of_gt h2] using ihr hor hm

theorem findNode_none {t : Tree α β} {key : α}
    (h : ∀ e ∈ inorder t, e.1 ≠ key) : findNode t key = none := by
  induction t with
  | leaf => rfl
  | node l k v h0 pn r ihl ihr =>
      simp only [inorder, List.mem_append, List.mem_cons] at h
      by_cases h1 : key < k
      · simpa [findNode, h1] using ihl fun e he => h e (Or.inl he)
      · by_cases h2 : k < key
        · simpa [findNode, h1, h2] using ihr fun e he => h e (Or.inr (Or.inr he))
        · have hk : k = key := le_antisymm (not_lt.1 h1) (not_lt.1 h2)
          exact absurd hk (h (k, v) (Or.inr (Or.inl rfl)))

/-!
Erasure: the in-order successor taken from the right subtree, the entry
set of the result, and order preservation.
-/

omit [LinearOrder α] in
theorem minValueNode_isSome (l : Tree α β) (k : α) (v : β) (h : Int) (pn : Bool)
    (r : Tree α β) : ∃ m, minValueNode (Tree.node l k v h pn r) = some m := by
  induction l generalizing k v h pn r with
  | leaf => exact ⟨(k, v), rfl⟩
  | node a b c d e f iha ihf => exact iha ..

omit [LinearOrder α] in
theorem minValueNode_mem {t : Tree α β} {m : α × β} (hm : minValueNode t = some m) :
    m ∈ inorder t := by
  induction t with
  | leaf => simp [minValueNode] at hm
  | node l k v h pn r ihl ihr =>
      cases l with
      | leaf =>
          simp only [minValueNode, Option.some.injEq] at hm
          simp [inorder, hm]
      | node a b c d e f =>
          have hthis := ihl (by simpa [minValueNode] using hm)
          show m ∈ inorder (Tree.node a b c d e f) ++ (k, v) :: inorder r
          exact List.mem_append.2 (Or.inl hthis)

theorem minValueNode_min {t : Tree α β} (ho : Ordered t) {m : α × β}
    (hm : minValueNode t = some m) : All (fun x => m.1 ≤ x) t := by
  induction t with
  | leaf => simp [All, inorder]
  | node l k v h pn r ihl ihr =>
      obtain ⟨hol, hor, hbl, hbr⟩ := ho
      rw [All_node]
      cases l with
      | leaf =>
          simp only [minValueNode, Option.some.injEq] at hm
          subst hm
          exact ⟨by simp [All, inorder], le_refl _,
            All_imp (fun x hx => le_of_lt hx) hbr⟩
      | node a b c d e f =>
          have hm' : minValueNode (Tree.node a b c d e f) = some m := by
            simpa [minValueNode] using hm
          have hml := ihl hol hm'
          have hmk : m.1 < k := hbl m (minValueNode_mem hm')
          exact ⟨hml, le_of_lt hmk,
            All_imp (fun x hx => le_of_lt (lt_trans hmk hx)) hbr⟩

theorem eraseNode_subset {t : Tree α β} {key : α} {e : α × β}
    (he : e ∈ inorder (eraseNode t key)) : e ∈ inorder t := by
  induction t generalizing key with
  | leaf => simpa [eraseNode] using he
  | node l k v h pn r ihl ihr =>
      by_cases h1 : key < k
      · simp only [eraseNode, h1, if_pos, inorder_balance, inorder, List.mem_append,
          List.mem_cons] at he ⊢
        rcases he with he | he
        · exact Or.inl (ihl he)
        · exact Or.inr he
      · by_cases h2 : k < key
        · simp only [eraseNode, h1, h2, if_neg, if_pos, not_false_iff, inorder_balance,
            inorder, List.mem_append, List.mem_cons] at he ⊢
          rcases he with he | he | he
          · exact Or.inl he
          · exact Or.inr (Or.inl he)
          · exact Or.inr (Or.inr (ihr he))
        · cases l with
          | leaf =>
              simp only [eraseNode, h1, h2, if_neg, not_false_iff,
                inorder_setPNull] at he
              simp only [inorder, List.mem_append, List.mem_cons]
              exact Or.inr (Or.inr he)
          | node la lb lc ld le_ lf =>
              cases r with
              | leaf =>
                  simp only [eraseNode, h1, h2, if_neg, not_false_iff,
                    inorder_setPNull] at he
                  simp only [inorder, List.mem_append, List.mem_cons] at he ⊢
                  tauto
              | node ra rb rc rd re rf =>
                  obtain ⟨m, hm⟩ := minValueNode_isSome ra rb rc rd re rf
                  simp only [eraseNode, h1, h2, if_neg, not_false_iff, hm,
                    inorder_balance] at he
                  simp only [inorder, List.mem_append, List.mem_cons] at he ⊢
                  rcases he with he | he | he
                  · tauto
                  · have hmm := minValueNode_mem hm
                    simp only [inorder, List.mem_append, List.mem_cons] at hmm
                    subst he
                    tauto
                  · have hsub := ihr he
                    simp only [inorder, List.mem_append, List.mem_cons] at hsub
                    tauto

theorem All_eraseNode {p : α → Prop} {t : Tree α β} (hp : All p t) (key : α) :
    All p (eraseNode t key) := fun e he => hp e (eraseNode_subset he)

theorem eraseNode_not_mem {t : Tree α β} (ho : Ordered t) (key : α) :
    ∀ e ∈ inorder (eraseNode t key), e.1 ≠ key := by
  induction t generalizing key with
  | leaf => simp [eraseNode, inorder]
  | node l k v h pn r ihl ihr =>
      obtain ⟨hol, hor, hbl, hbr⟩ := ho
      intro e he
      by_cases h1 : key < k
      · simp only [eraseNode, h1, if_pos, inorder_balance, inorder, List.mem_append,
          List.mem_cons] at he
        rcases he with he | he | he
        · exact ihl hol key e he
        · rw [he]
          intro hc
          have hc2 : k = key := hc
          subst hc2
          exact absurd h1 (lt_irrefl k)
        · intro hc
          exact absurd h1 (not_lt_of_gt (hc ▸ hbr e he))
      · by_cases h2 : k < key
        · simp only [eraseNode, h1, h2, if_neg, if_pos, not_false_iff, inorder_balance,
            inorder, List.mem_append, List.mem_cons] at he
          rcases he with he | he | he
          · intro hc
            exact absurd h2 (not_lt_of_gt (hc ▸ hbl e he))
          · rw [he]
            intro hc
            have hc2 : k = key := hc
            subst hc2
            exact absurd h2 (lt_irrefl k)
          · exact ihr hor key e he
        · have hk : k = key := le_antisymm (not_lt.1 h1) (not_lt.1 h2)
          subst hk
          cases l with
          | leaf =>
              simp only [eraseNode, h1, h2, if_neg, not_false_iff,
                inorder_setPNull] at he
              exact ne_of_gt (hbr e he)
          | node la lb lc ld le_ lf =>
              cases r with
              | leaf =>
                  simp only [eraseNode, h1, h2, if_neg, not_false_iff,
                    inorder_setPNull] at he
                  exact ne_of_lt (hbl e he)
              | node ra rb rc rd re rf =>
                  obtain ⟨m, hm⟩ := minValueNode_isSome ra rb rc rd re rf
                  simp only [eraseNode, h1, h2, if_neg, not_false_iff, hm,
                    inorder_balance, inorder, List.mem_append, List.mem_cons] at he
                  rcases he with he | he | he
                  · refine ne_of_lt (hbl e ?_)
                    simp only [inorder, List.mem_append, List.mem_cons]
                    tauto
                  · have hmm : m ∈ inorder (Tree.node ra rb rc rd re rf) :=
                      minValueNode_mem hm
                    rw [he]
                    exact ne_of_gt (hbr m hmm)
                  · have hee : e ∈ inorder (Tree.node ra rb rc rd re rf) :=
                      eraseNode_subset he
                    exact ne_of_gt (hbr e hee)

theorem Ordered_eraseNode {t : Tree α β} (ho : Ordered t) (key : α) :
    Ordered (eraseNode t key) := by
  induction t generalizing key with
  | leaf => simpa [eraseNode] using ho
  | node l k v h pn r ihl ihr =>
      obtain ⟨hol, hor, hbl, hbr⟩ := ho
      by_cases h1 : key < k
      · simp only [eraseNode, h1, if_pos, Ordered_balance]
        exact ⟨ihl hol key, hor, All_eraseNode hbl key, hbr⟩
      · by_cases h2 : k < key
        · simp only [eraseNode, h1, h2, if_neg, if_pos, not_false_iff, Ordered_balance]
          exact ⟨hol, ihr hor key, hbl, All_eraseNode hbr key⟩
        · cases l with
          | leaf =>
              simp only [eraseNode, h1, h2, if_neg, not_false_iff, Ordered_setPNull]
              exact hor
          | node la lb lc ld le_ lf =>
              cases r with
              | leaf =>
                  simp only [eraseNode, h1, h2, if_neg, not_false_iff, Ordered_setPNull]
                  exact hol
              | node ra rb rc rd re rf =>
                  obtain ⟨m, hm⟩ := minValueNode_isSome ra rb rc rd re rf
                  simp only [eraseNode, h1, h2, if_neg, not_false_iff, hm,
                    Ordered_balance]
                  have hmem : m ∈ inorder (Tree.node ra rb rc rd re rf) :=
                    minValueNode_mem hm
                  have hkm : k < m.1 := hbr m hmem
                  refine ⟨hol, ihr hor m.1, ?_, ?_⟩
                  · exact All_imp (fun x hx => lt_trans hx hkm) hbl
                  · intro e he
                    have hin : e ∈ inorder (Tree.node ra rb rc rd re rf) :=
                      eraseNode_subset he
                    have hle : m.1 ≤ e.1 := minValueNode_min hor hm e hin
                    have hne : e.1 ≠ m.1 := eraseNode_not_mem hor m.1 e he
                    exact lt_of_le_of_ne hle (Ne.symm hne)

/-!
Height bookkeeping and the AVL balance invariant.  The equation lemmas
below restate the definitions on explicit constructors so that rewriting
never unfolds an application to a variable.
-/

omit [LinearOrder α] in
theorem height_leaf : height (Tree.leaf : Tree α β) = 0 := rfl

omit [LinearOrder α] in
theorem height_node (l : Tree α β) (k : α) (v : β) (h : Int) (pn : Bool) (r : Tree α β) :
    height (Tree.node l k v h pn r) = h := rfl

omit [LinearOrder α] in
theorem balanceFactor_node (l : Tree α β) (k : α) (v : β) (h : Int) (pn : Bool)
    (r : Tree α β) : balanceFactor (Tree.node l k v h pn r) = height l - height r := rfl

omit [LinearOrder α] in
theorem updateHeight_node (l : Tree α β) (k : α) (v : β) (h : Int) (pn : Bool)
    (r : Tree α β) :
    updateHeight (Tree.node l k v h pn r) =
      Tree.node l k v (1 + max (height l) (height r)) pn r := rfl

omit [LinearOrder α] in
theorem setPNull_node (b : Bool) (l : Tree α β) (k : α) (v : β) (h : Int) (pn : Bool)
    (r : Tree α β) :
    setPNull b (Tree.node l k v h pn r) = Tree.node l k v h b r := rfl

omit [LinearOrder α] in
theorem rotateRight_node (ll : Tree α β) (lk : α) (lv : β) (lh : Int) (lpn : Bool)
    (lr : Tree α β) (k : α) (v : β) (h : Int) (pn : Bool) (r : Tree α β) :
    rotateRight (Tree.node (Tree.node ll lk lv lh lpn lr) k v h pn r) =
      updateHeight (Tree.node ll lk lv lh false
        (updateHeight (Tree.node (setPNull false lr) k v h false r))) := rfl

omit [LinearOrder α] in
theorem rotateLeft_node (l : Tree α β) (k : α) (v : β) (h : Int) (pn : Bool)
    (rl : Tree α β) (rk : α) (rv : β) (rh : Int) (rpn : Bool) (rr : Tree α β) :
    rotateLeft (Tree.node l k v h pn (Tree.node rl rk rv rh rpn rr)) =
      updateHeight (Tree.node
        (updateHeight (Tree.node l k v h false (setPNull false rl))) rk rv rh false rr) := rfl

omit [LinearOrder α] in
theorem balance_node (l : Tree α β) (k : α) (v : β) (h : Int) (pn : Bool) (r : Tree α β) :
    balance (Tree.node l k v h pn r) =
      if height l - height r > 1 then
        setPNull true (rotateRight (Tree.node (if balanceFactor l < 0 then rotateLeft l else l)
          k v (1 + max (height l) (height r)) pn r))
      else if height l - height r < -1 then
        setPNull true (rotateLeft (Tree.node l k v (1 + max (height l) (height r)) pn
          (if balanceFactor r > 0 then rotateRight r else r)))
      else Tree.node l k v (1 + max (height l) (height r)) pn r := rfl

omit [LinearOrder α] in
theorem HeightsOk_node (l : Tree α β) (k : α) (v : β) (h : Int) (pn : Bool)
    (r : Tree α β) :
    HeightsOk (Tree.node l k v h pn r) ↔
      HeightsOk l ∧ HeightsOk r ∧ h = 1 + max (height l) (height r) := Iff.rfl

omit [LinearOrder α] in
theorem BalancedS_node (l : Tree α β) (k : α) (v : β) (h : Int) (pn : Bool)
    (r : Tree α β) :
    BalancedS (Tree.node l k v h pn r) ↔
      BalancedS l ∧ BalancedS r ∧ height l - height r ≤ 1 ∧ height r - height l ≤ 1 :=
  Iff.rfl

omit [LinearOrder α] in
theorem height_nonneg {t : Tree α β} (h : HeightsOk t) : 0 ≤ height t := by
  induction t with
  | leaf => simp [height_leaf]
  | node l k v hh pn r ihl ihr =>
      obtain ⟨hl, hr, he⟩ := h
      have h1 := ihl hl
      have h2 := ihr hr
      rw [height_node, he]
      rw [max_def]
      split_ifs <;> omega

omit [LinearOrder α] in
theorem HeightsOk_setPNull (b : Bool) (t : Tree α β) :
    HeightsOk (setPNull b t) ↔ HeightsOk t := by
  cases t <;> simp [setPNull, HeightsOk]

omit [LinearOrder α] in
theorem BalancedS_setPNull (b : Bool) (t : Tree α β) :
    BalancedS (setPNull b t) ↔ BalancedS t := by
  cases t <;> simp [setPNull, BalancedS]

set_option maxHeartbeats 1600000 in
/-- What `balance` guarantees at a node whose children are valid AVL
subtrees with stored heights differing by at most 2 (the situation after
one child was rebuilt by insert or erase): the result is a valid AVL tree
whose root height is `1 + max` of the children's heights or one less, and
exactly `1 + max` when no rotation was needed. -/
theorem balance_spec (l r : Tree α β) (k : α) (v : β) (h : Int) (pn : Bool)
    (hol : HeightsOk l) (hor : HeightsOk r) (hbl : BalancedS l) (hbr : BalancedS r)
    (hd1 : height l - height r ≤ 2) (hd2 : height r - height l ≤ 2) :
    HeightsOk (balance (Tree.node l k v h pn r)) ∧
    BalancedS (balance (Tree.node l k v h pn r)) ∧
    max (height l) (height r) ≤ height (balance (Tree.node l k v h pn r)) ∧
    height (balance (Tree.node l k v h pn r)) ≤ 1 + max (height l) (height r) ∧
    (height l - height r ≤ 1 → height r - height l ≤ 1 →
      height (balance (Tree.node l k v h pn r)) = 1 + max (height l) (height r)) := by
  have hnl := height_nonneg hol
  have hnr := height_nonneg hor
  rw [balance_node]
  by_cases hc1 : height l - height r > 1
  · rw [if_pos hc1]
    cases l with
    | leaf => rw [height_leaf] at hc1; omega
    | node la lk lv lh lpn lb =>
        obtain ⟨hola, holb, hlh⟩ := hol
        obtain ⟨hbla, hblb, hbd1, hbd2⟩ := hbl
        have hna := height_nonneg hola
        have hnb := height_nonneg holb
        rw [height_node] at hc1 hd1 hd2 hnl ⊢
        rw [balanceFactor_node]
        by_cases hc2 : height la - height lb < 0
        · rw [if_pos hc2]
          cases lb with
          | leaf => rw [height_leaf] at hc2; omega
          | node lba lbk lbv lbh lbpn lbb =>
              obtain ⟨holba, holbb, hlbh⟩ := holb
              obtain ⟨hblba, hblbb, hbbd1, hbbd2⟩ := hblb
              have hnba := height_nonneg holba
              have hnbb := height_nonneg holbb
              rw [height_node] at hc2 hlh hbd1 hbd2 hnb
              simp only [rotateLeft_node, updateHeight_node, height_node,
                height_setPNull, rotateRight_node, setPNull_node, HeightsOk_node,
                BalancedS_node, HeightsOk_setPNull, BalancedS_setPNull, height_leaf,
                hola, holba, holbb, hor, hbla, hblba, hblbb, hbr, true_and, and_true]
              simp only [max_def] at hlh hlbh ⊢
              split_ifs at hlh hlbh ⊢ <;> (try simp only [implies_true, and_true, true_and]) <;>
                first
                | trivial
                | omega
        · rw [if_neg hc2]
          simp only [rotateRight_node, updateHeight_node, height_node, height_setPNull,
            setPNull_node, HeightsOk_node, BalancedS_node, HeightsOk_setPNull,
            BalancedS_setPNull, hola, holb, hor, hbla, hblb, hbr, true_and, and_true]
          simp only [max_def] at hlh ⊢
          split_ifs at hlh ⊢ <;> (try simp only [implies_true, and_true, true_and]) <;>
            first
            | trivial
            | omega
  · rw [if_neg hc1]
    by_cases hc3 : height l - height r < -1
    · rw [if_pos hc3]
      cases r with
      | leaf => rw [height_leaf] at hc3; omega
      | node ra rk rv rh rpn rb =>
          obtain ⟨hora, horb, hrh⟩ := hor
          obtain ⟨hbra, hbrb, hrd1, hrd2⟩ := hbr
          have hnra := height_nonneg hora
          have hnrb := height_nonneg horb
          rw [height_node] at hc1 hc3 hd1 hd2 hnr ⊢
          rw [balanceFactor_node]
          by_cases hc4 : height ra - height rb > 0
          · rw [if_pos hc4]
            cases ra with
            | leaf => rw [height_leaf] at hc4; omega
            | node raa rak rav rah rapn rab =>
                obtain ⟨horaa, horab, hrah⟩ := hora
                obtain ⟨hbraa, hbrab, hrad1, hrad2⟩ := hbra
                have hnaa := height_nonneg horaa
                have hnab := height_nonneg horab
                rw [height_node] at hc4 hrh hrd1 hrd2 hnra
                simp only [rotateRight_node, updateHeight_node, height_node,
                  height_setPNull, rotateLeft_node, setPNull_node, HeightsOk_node,
                  BalancedS_node, HeightsOk_setPNull, BalancedS_setPNull, height_leaf,
                  hol, horaa, horab, horb, hbl, hbraa, hbrab, hbrb, true_and, and_true]
                simp only [max_def] at hrh hrah ⊢
                split_ifs at hrh hrah ⊢ <;> (try simp only [implies_true, and_true, true_and]) <;>
                  first
                  | trivial
                  | omega
          · rw [if_neg hc4]
            simp only [rotateLeft_node, updateHeight_node, height_node, height_setPNull,
              setPNull_node, HeightsOk_node, BalancedS_node, HeightsOk_setPNull,
              BalancedS_setPNull, hol, hora, horb, hbl, hbra, hbrb, true_and, and_true]
            simp only [max_def] at hrh ⊢
            split_ifs at hrh ⊢ <;> (try simp only [implies_true, and_true, true_and]) <;>
              first
              | trivial
              | omega
    · rw [if_neg hc3]
      simp only [height_node, HeightsOk_node, BalancedS_node, hol, hor, hbl, hbr,
        true_and, and_true]
      simp only [max_def]
      split_ifs <;> (try simp only [implies_true, and_true, true_and]) <;>
        first
        | trivial
        | omega

/-- AVL preservation by insertion: stored heights stay correct, the
balance inequality is maintained, and the root height grows by at most
one and never shrinks. -/
theorem insert_avl {t : Tree α β} (hh : HeightsOk t) (hb : BalancedS t) (key : α)
    (value : β) (pnf : Bool) :
    HeightsOk (insertNode t key value pnf).1 ∧ BalancedS (insertNode t key value pnf).1 ∧
    height t ≤ height (insertNode t key value pnf).1 ∧
    height (insertNode t key value pnf).1 ≤ height t + 1 := by
  induction t generalizing pnf with
  | leaf =>
      refine ⟨?_, ?_, ?_, ?_⟩ <;>
        simp [insertNode, newNodeHeight, HeightsOk, BalancedS, height]
  | node l k v h pn0 r ihl ihr =>
      obtain ⟨hol, hor, hlh⟩ := hh
      obtain ⟨hbl, hbr, hb1, hb2⟩ := hb
      by_cases h1 : key < k
      · obtain ⟨ih1, ih2, ih3, ih4⟩ := ihl hol hbl false
        obtain ⟨hs1, hs2, hs3, hs4, hs5⟩ :=
          balance_spec (insertNode l key value false).1 r k v h pn0 ih1 hor ih2 hbr
            (by omega) (by omega)
        simp only [insertNode, h1, if_pos]
        refine ⟨hs1, hs2, ?_, ?_⟩ <;>
          · rw [height_node]
            simp only [max_def] at hlh hs3 hs4 hs5
            split_ifs at hlh hs3 hs4 hs5 <;> omega
      · by_cases h2 : k < key
        · obtain ⟨ih1, ih2, ih3, ih4⟩ := ihr hor hbr false
          obtain ⟨hs1, hs2, hs3, hs4, hs5⟩ :=
            balance_spec l (insertNode r key value false).1 k v h pn0 hol ih1 hbl ih2
              (by omega) (by omega)
          simp only [insertNode, h1, h2, if_neg, if_pos, not_false_iff]
          refine ⟨hs1, hs2, ?_, ?_⟩ <;>
            · rw [height_node]
              simp only [max_def] at hlh hs3 hs4 hs5
              split_ifs at hlh hs3 hs4 hs5 <;> omega
        · obtain ⟨hs1, hs2, hs3, hs4, hs5⟩ :=
            balance_spec l r k value h pn0 hol hor hbl hbr (by omega) (by omega)
          simp only [insertNode, h1, h2, if_neg, not_false_iff]
          refine ⟨hs1, hs2, ?_, ?_⟩ <;>
            · rw [height_node]
              simp only [max_def] at hlh hs3 hs4 hs5
              split_ifs at hlh hs3 hs4 hs5 <;> omega

/-- AVL preservation by erasure: stored heights stay correct, the balance
inequality is maintained, and the root height shrinks by at most one. -/
theorem erase_avl {t : Tree α β} (hh : HeightsOk t) (hb : BalancedS t) (key : α) :
    HeightsOk (eraseNode t key) ∧ BalancedS (eraseNode t key) ∧
    height t - 1 ≤ height (eraseNode t key) ∧ height (eraseNode t key) ≤ height t := by
  induction t generalizing key with
  | leaf => simp [eraseNode, HeightsOk, BalancedS, height]
  | node l k v h pn0 r ihl ihr =>
      obtain ⟨hol, hor, hlh⟩ := hh
      obtain ⟨hbl, hbr, hb1, hb2⟩ := hb
      have hnl := height_nonneg hol
      have hnr := height_nonneg hor
      by_cases h1 : key < k
      · obtain ⟨ih1, ih2, ih3, ih4⟩ := ihl hol hbl key
        obtain ⟨hs1, hs2, hs3, hs4, hs5⟩ :=
          balance_spec (eraseNode l key) r k v h pn0 ih1 hor ih2 hbr
            (by omega) (by omega)
        simp only [eraseNode, h1, if_pos]
        refine ⟨hs1, hs2, ?_, ?_⟩ <;>
          · rw [height_node]
            simp only [max_def] at hlh hs3 hs4 hs5
            split_ifs at hlh hs3 hs4 hs5 <;> omega
      · by_cases h2 : k < key
        · obtain ⟨ih1, ih2, ih3, ih4⟩ := ihr hor hbr key
          obtain ⟨hs1, hs2, hs3, hs4, hs5⟩ :=
            balance_spec l (eraseNode r key) k v h pn0 hol ih1 hbl ih2
              (by omega) (by omega)
          simp only [eraseNode, h1, h2, if_neg, if_pos, not_false_iff]
          refine ⟨hs1, hs2, ?_, ?_⟩ <;>
            · rw [height_node]
              simp only [max_def] at hlh hs3 hs4 hs5
              split_ifs at hlh hs3 hs4 hs5 <;> omega
        · cases l with
          | leaf =>
              simp only [eraseNode, h1, h2, if_neg, not_false_iff,
                HeightsOk_setPNull, BalancedS_setPNull, height_setPNull]
              refine ⟨hor, hbr, ?_, ?_⟩ <;>
                · simp only [height_node, height_leaf] at *
                  simp only [max_def] at *
                  split_ifs at * <;> omega
          | node la lk lv lh lpn lb =>
              cases r with
              | leaf =>
                  simp only [eraseNode, h1, h2, if_neg, not_false_iff,
                    HeightsOk_setPNull, BalancedS_setPNull, height_setPNull]
                  refine ⟨hol, hbl, ?_, ?_⟩ <;>
                    · simp only [height_node, height_leaf] at *
                      simp only [max_def] at *
                      split_ifs at * <;> omega
              | node ra rk rv rh rpn rb =>
                  obtain ⟨m, hm⟩ := minValueNode_isSome ra rk rv rh rpn rb
                  obtain ⟨ih1, ih2, ih3, ih4⟩ := ihr hor hbr m.1
                  obtain ⟨hs1, hs2, hs3, hs4, hs5⟩ :=
                    balance_spec (Tree.node la lk lv lh lpn lb)
                      (eraseNode (Tree.node ra rk rv rh rpn rb) m.1)
                      m.1 m.2 h pn0 hol ih1 hbl ih2 (by omega) (by omega)
                  have heq : eraseNode (Tree.node (Tree.node la lk lv lh lpn lb) k v h
                        pn0 (Tree.node ra rk rv rh rpn rb)) key =
                      balance (Tree.node (Tree.node la lk lv lh lpn lb) m.1 m.2 h pn0
                        (eraseNode (Tree.node ra rk rv rh rpn rb) m.1)) := by
                    simp only [eraseNode, h1, h2, if_neg, not_false_iff, hm]
                  rw [heq]
                  refine ⟨hs1, hs2, ?_, ?_⟩ <;>
                    · simp only [height_node] at *
                      simp only [max_def] at *
                      split_ifs at * <;> omega

/-!
Cloning, and the invariants of every reachable container state.
-/

omit [LinearOrder α] in
theorem inorder_cloneNode (t : Tree α β) : inorder (cloneNode t) = inorder t := by
  induction t with
  | leaf => rfl
  | node l k v h pn r ihl ihr => simp [cloneNode, inorder, ihl, ihr]

theorem Ordered_cloneNode (t : Tree α β) : Ordered (cloneNode t) ↔ Ordered t := by
  rw [ordered_iff_pairwise, ordered_iff_pairwise, inorder_cloneNode]

omit [LinearOrder α] in
theorem height_cloneNode_mem (t : Tree α β) :
    height (cloneNode t) = 0 ∨ height (cloneNode t) = 1 := by
  cases t with
  | leaf => exact Or.inl rfl
  | node l k v h pn r => exact Or.inr rfl

omit [LinearOrder α] in
theorem BalancedS_cloneNode (t : Tree α β) : BalancedS (cloneNode t) := by
  induction t with
  | leaf => trivial
  | node l k v h pn r ihl ihr =>
      have h1 := height_cloneNode_mem l
      have h2 := height_cloneNode_mem r
      exact (BalancedS_node ..).2 ⟨ihl, ihr, by omega, by omega⟩

/-- The invariants that hold of every container state reachable through
the public interface: order, correct stored heights, balance. -/
def GoodBST (b : BST α β) : Prop :=
  Ordered b.root ∧ HeightsOk b.root ∧ BalancedS b.root

theorem GoodBST_bstEmpty : GoodBST (bstEmpty : BST α β) := ⟨trivial, trivial, trivial⟩

theorem GoodBST_push {b : BST α β} (hg : GoodBST b) (key : α) (value : β) :
    GoodBST (push b key value) := by
  obtain ⟨h1, h2, h3⟩ := hg
  obtain ⟨g1, g2, g3, g4⟩ := insert_avl h2 h3 key value true
  exact ⟨Ordered_insertNode h1 key value true, g1, g2⟩

theorem GoodBST_drop {b : BST α β} (hg : GoodBST b) (key : α) :
    GoodBST (drop b key) := by
  obtain ⟨h1, h2, h3⟩ := hg
  obtain ⟨g1, g2, g3, g4⟩ := erase_avl h2 h3 key
  exact ⟨Ordered_eraseNode h1 key, g1, g2⟩

theorem GoodBST_clear (b : BST α β) : GoodBST (clear b) := ⟨trivial, trivial, trivial⟩

theorem GoodBST_applyOp {b : BST α β} (hg : GoodBST b) (op : Op α β) :
    GoodBST (applyOp b op) := by
  cases op with
  | push k v => exact GoodBST_push hg k v
  | drop k => exact GoodBST_drop hg k
  | clear => exact GoodBST_clear b

theorem GoodBST_applyOps (ops : List (Op α β)) : GoodBST (applyOps ops) := by
  have haux : ∀ (l : List (Op α β)) (b : BST α β), GoodBST b →
      GoodBST (l.foldl applyOp b) := by
    intro l
    induction l with
    | nil => exact fun b hb => hb
    | cons op rest ih => exact fun b hb => ih (applyOp b op) (GoodBST_applyOp hb op)
  exact haux ops bstEmpty GoodBST_bstEmpty

/-!
The claims.
-/

/-- C1: the claim states that after each public operation size() equals the
number of reachable nodes and the number of traversal entries.  The source's
`erase` never decrements `nodeCount`, so after push(0,0) followed by drop(0)
the stored count is still 1 while the root is absent: no node is reachable
and the ascending traversal is empty. -/
theorem c1_count_bug :
    size (applyOps ([Op.push 0 0, Op.drop 0] : List (Op ℕ ℕ))) = 1 ∧
    (applyOps ([Op.push 0 0, Op.drop 0] : List (Op ℕ ℕ))).root = Tree.leaf ∧
    countNodes (applyOps ([Op.push 0 0, Op.drop 0] : List (Op ℕ ℕ))).root = 0 ∧
    traverse (applyOps ([Op.push 0 0, Op.drop 0] : List (Op ℕ ℕ))).root = [] := by
  decide

/-- C2: on every reachable container state, push(k,v) followed by read-only
indexed access at k yields v, and erase(k) followed by find(k) yields the
end position. -/
theorem c2_roundtrip (ops : List (Op α β)) (key : α) (value : β) :
    (indexedRead (push (applyOps ops) key value) key).1 = Except.ok value ∧
    find (drop (applyOps ops) key) key = none := by
  obtain ⟨ho, hh, hb⟩ := GoodBST_applyOps ops
  constructor
  · have ho2 : Ordered (insertNode (applyOps ops).root key value true).1 :=
      Ordered_insertNode ho key value true
    have hf := findNode_complete ho2 (mem_insertNode (applyOps ops).root key value true)
    simp [indexedRead, push, hf]
  · have hnone := findNode_none (eraseNode_not_mem ho key)
    simp only [find, drop]
    exact hnone

/-- C3 (amended): after the public mutations push/insert, drop/erase and
clear, every reachable node satisfies both the stored-height equation and
the balance inequality; after copy construction the clone still satisfies
the balance inequality on its stored fields, but its stored heights are the
constructor default rather than 1 + max of the children (see the
counterexample). -/
theorem c3_height_invariant (ops : List (Op α β)) :
    HeightsOk (applyOps ops).root ∧ BalancedS (applyOps ops).root ∧
    BalancedS (copyBST (applyOps ops)).root := by
  obtain ⟨h1, h2, h3⟩ := GoodBST_applyOps ops
  exact ⟨h2, h3, BalancedS_cloneNode (applyOps ops).root⟩

/-- C3 (counterexample): copy-constructing the two-entry container built by
push(0,0); push(1,0) yields a clone whose root stores height 1 although its
right child also stores height 1, so the stored-height equation
height = 1 + max(children) fails after a public operation. -/
theorem c3_counterexample :
    ¬ HeightsOk (copyBST (applyOps
      ([Op.push 0 0, Op.push 1 0] : List (Op ℕ ℕ)))).root := by
  decide

/-- C4: after every sequence of public mutations, every reachable node has
all left-subtree keys strictly below and all right-subtree keys strictly
above its own key under the configured ordering, and hence no key occurs
twice. -/
theorem c4_order_invariant (ops : List (Op α β)) :
    Ordered (applyOps ops).root ∧
    ((inorder (applyOps ops).root).map Prod.fst).Nodup := by
  have ho := (GoodBST_applyOps ops).1
  refine ⟨ho, ?_⟩
  have hp := (ordered_iff_pairwise (applyOps ops).root).1 ho
  have hmap : ((inorder (applyOps ops).root).map Prod.fst).Pairwise (· < ·) :=
    List.pairwise_map.2 hp
  exact hmap.imp ne_of_lt

/-- C5: the claim states that successor-rule traversal from begin() visits
every stored entry in increasing key order.  After inserting 4,3,5,2,1 a
rotation occurs below the root; `rotateRight` assigns the promoted node's
parent from the field it just overwrote and `balance` then resets it to
null, and the caller never re-points the reattached subtree root at its new
parent.  Traversal therefore stops after key 3, missing keys 4 and 5,
although the container holds keys 1..5. -/
theorem c5_traversal_bug :
    ((inorder (applyOps ([Op.push 4 0, Op.push 3 0, Op.push 5 0, Op.push 2 0,
        Op.push 1 0] : List (Op ℕ ℕ))).root).map Prod.fst = [1, 2, 3, 4, 5]) ∧
    ((traverse (applyOps ([Op.push 4 0, Op.push 3 0, Op.push 5 0, Op.push 2 0,
        Op.push 1 0] : List (Op ℕ ℕ))).root).map Prod.fst = [1, 2, 3]) := by
  decide

/-- C6: read-only indexed access at an absent key signals the KeyNotFound
error and returns the container state unchanged (same size, same shape). -/
theorem c6_absent_read (b : BST α β) (key : α) (h : find b key = none) :
    indexedRead b key = (Except.error (), b) := by
  simp only [find] at h
  simp [indexedRead, h]

theorem c6_witness :
    find (bstEmpty : BST ℕ ℕ) 5 = none ∧
    indexedRead (bstEmpty : BST ℕ ℕ) 5 = (Except.error (), bstEmpty) :=
  ⟨rfl, c6_absent_read bstEmpty 5 rfl⟩

/-- C9: copy construction deep-clones the node graph: the copy holds
exactly the original's entries and count, and erasing a key from the copy
acts on the copy alone — in this explicit-state-passing embedding the
original container is a separate value that the erase never touches, so its
size and traversal are unchanged by construction. -/
theorem c9_copy_independence (ops : List (Op α β)) (key : α) :
    inorder (copyBST (applyOps ops)).root = inorder (applyOps ops).root ∧
    size (copyBST (applyOps ops)) = size (applyOps ops) ∧
    find (drop (copyBST (applyOps ops)) key) key = none := by
  refine ⟨inorder_cloneNode (applyOps ops).root, rfl, ?_⟩
  have ho : Ordered (copyBST (applyOps ops)).root :=
    (Ordered_cloneNode (applyOps ops).root).2 (GoodBST_applyOps ops).1
  have hnone := findNode_none (eraseNode_not_mem ho key)
  simp only [find, drop]
  exact hnone

/-- C10: `equalRange` starts with `while (node->left)` on the root without
a null check, so on the empty container it dereferences the absent root
(the `none` result of the embedding) for every key, instead of returning an
empty range; when the container is non-empty the initial loop is safe and a
pair of iterators is returned. -/
theorem c10_equalRange_empty (b : BST α β) (key : α) :
    (b.root = Tree.leaf → equalRange b key = none) ∧
    (b.root ≠ Tree.leaf → (equalRange b key).isSome = true) := by
  constructor
  · intro h
    simp [equalRange, h]
  · intro h
    cases hb : b.root with
    | leaf => exact absurd hb h
    | node a k0 v0 h0 p0 r0 => simp [equalRange, hb]

theorem c10_witness :
    equalRange (bstEmpty : BST ℕ ℕ) 7 = none ∧
    (equalRange (applyOps ([Op.push 1 2] : List (Op ℕ ℕ))) 7).isSome = true :=
  ⟨(c10_equalRange_empty (bstEmpty : BST ℕ ℕ) 7).1 rfl,
   (c10_equalRange_empty (applyOps ([Op.push 1 2] : List (Op ℕ ℕ))) 7).2 (by decide)⟩

end kaseev
